import Mathlib

/-!
# Verification of the lmfit interactive `Fitter` (fitter.py)

Shallow embedding of `lmfit/fitter.py`: the fit-session controller
(`Fitter`) with its parameter-expression dependency resolver
(`__assign_deps` / `__update_paramval`) and the stateful
`guess()` / `fit()` / model-binding lifecycle.

External collaborators that are *not* part of the repository's source
(the asteval expression interpreter, the `NameFinder` AST walker, the
Model capability, the IPython widget layer) are modelled from the spec
as narrow capability interfaces, as the spec itself prescribes.

Python exceptions are modelled with `Except`; because `Fitter.guess`
mutates the session object before it can raise, its error value carries
the session state at the moment of the raise.  Machine-level numerics
are modelled as `Int` (the resolver's logic is number-agnostic).
The unbounded recursion of `__update_paramval` is modelled with an
explicit fuel parameter; running out of fuel is the distinguished
error `Err.outOfFuel`, so "the recursion does not terminate" is
rendered as "every fuel amount is exhausted".
-/

/-- Modelled from the spec: the parsed expression representation produced by
the external asteval `Interpreter.parse` capability ("parse(source) → AST").
Only names, numbers and arithmetic are needed by the resolver's contract. -/
inductive Ast where
  | num (n : Int)
  | var (s : String)
  | add (a b : Ast)
  | mul (a b : Ast)
deriving DecidableEq, Repr

/-- Modelled from the spec: an expression source string.  The spec only ever
distinguishes well-formed sources (which parse to an AST) from malformed ones
("fails with a syntax-error kind on malformed source"), so a source is either
a carrier of its parse result or the malformed marker. -/
inductive ExprSrc where
  | src (a : Ast)
  | malformed
deriving DecidableEq, Repr

/-- A parameter, as described by the spec's data model (`fitter.py` reads and
writes exactly the attributes `name`, `value`, `min`, `max`, `expr`, `ast`,
`deps` of the external `Parameter` entity). `none` models Python `None` /
a not-yet-set attribute. -/
structure Param where
  name : Option String
  value : Option Int
  minB : Option Int
  maxB : Option Int
  expr : Option ExprSrc
  ast : Option Ast
  deps : Option (List String)
deriving DecidableEq, Repr

/-- A ParameterSet: name → Parameter mapping with insertion order, modelled
as an association list (Python `Parameters` is an ordered dict). -/
abbrev ParamSet := List (String × Param)

/-- The asteval interpreter's mutable symbol table: name → last-known value
(a parameter value, hence possibly `none`). -/
abbrev Symtable := List (String × Option Int)

/-- The data being fitted (opaque to the controller; it is only passed
through to the model capability). -/
abbrev Data := List Int

/-- A value appearing in the session's keyword bindings, in call-time
overrides, or in the effective argument map handed to `model.fit`:
`fit()` builds `dict(self.current_params)` (whose values are `Param`s) and
overlays it with raw keyword values. -/
inductive Arg where
  | num (n : Int)
  | arr (xs : List Int)
  | param (p : Param)
deriving DecidableEq, Repr

/-- First-match association-list lookup (Python dict lookup; dicts never
hold duplicate keys, and all mutation helpers below preserve that reading). -/
def alookup {α : Type} : List (String × α) → String → Option α
  | [], _ => none
  | (k, v) :: rest, key => if k = key then some v else alookup rest key

/-- Replace the value at an existing key, keeping position (Python mutation
of the object stored in a dict slot).  Absent keys leave the list unchanged. -/
def aupdate {α : Type} : List (String × α) → String → α → List (String × α)
  | [], _, _ => []
  | (k, v) :: rest, key, w => if k = key then (k, w) :: rest else (k, v) :: aupdate rest key w

/-- Python `d[k] = v`: overwrite in place when the key exists, otherwise
append at the end (insertion order). -/
def ainsert {α : Type} (l : List (String × α)) (k : String) (v : α) : List (String × α) :=
  if (alookup l k).isSome then aupdate l k v else l ++ [(k, v)]

/-- Python `dict.update`: assign every entry of `upd` into `base`, in order. -/
def dictUpdate (base : List (String × Arg)) : List (String × Arg) → List (String × Arg)
  | [] => base
  | (k, v) :: rest => dictUpdate (ainsert base k v) rest

namespace Interpreter

/-- Modelled from the spec: the external asteval capability
"parse(source) → AST (fails with a syntax-error kind on malformed source)". -/
def parse : ExprSrc → Except Unit Ast
  | .src a => .ok a
  | .malformed => .error ()

/-- Modelled from the spec: the external asteval capability
"run(AST) → value (fails with a runtime-error kind)".  A name absent from
the symbol table, or bound to `None`, is a runtime evaluation error. -/
def run (st : Symtable) : Ast → Except Unit Int
  | .num n => .ok n
  | .var s =>
    match alookup st s with
    | some (some v) => .ok v
    | _ => .error ()
  | .add a b =>
    match run st a, run st b with
    | .ok x, .ok y => .ok (x + y)
    | .error e, _ => .error e
    | _, .error e => .error e
  | .mul a b =>
    match run st a, run st b with
    | .ok x, .ok y => .ok (x * y)
    | .error e, _ => .error e
    | _, .error e => .error e

end Interpreter

namespace NameFinder

/-- Modelled from the spec: the external `NameFinder.generic_visit` walker,
which appends every free-variable name of the AST in traversal
(first-seen) order, duplicates included. -/
def names : Ast → List String
  | .num _ => []
  | .var s => [s]
  | .add a b => names a ++ names b
  | .mul a b => names a ++ names b

end NameFinder

/-- Python exceptions observable from `fitter.py`'s control flow. -/
inductive Err where
  | keyError
  | attributeError
  | unboundLocal
  | parseError
  | evalError
  | outOfFuel
deriving DecidableEq, Repr

/-- The inner loop of `Fitter.__assign_deps` (lines 199-202): walk the found
names, keeping those that are keys of the previously established
`current_params` and not yet collected (first-seen order, deduplicated). -/
def depsLoop (prev : ParamSet) (acc : List String) : List String → List String
  | [] => acc
  | n :: rest =>
    if (alookup prev n).isSome ∧ ¬ acc.contains n
    then depsLoop prev (acc ++ [n]) rest
    else depsLoop prev acc rest

/-- `Fitter.__assign_deps(params)` (fitter.py lines 189-205), with the
previous `current_params` and the interpreter symbol table passed
explicitly.  For every parameter with a non-null `expr`: parse it
(a parse failure raises, carrying the symbol table mutated so far),
store the AST, collect `deps`, register the parameter's current value in
the symbol table under its key, and default a missing `name` to the key. -/
def assign_deps (prev : ParamSet) : List (String × Param) → Symtable →
    Except (Err × Symtable) (ParamSet × Symtable)
  | [], st => .ok ([], st)
  | (nm, par) :: rest, st =>
    match par.expr with
    | none =>
      match assign_deps prev rest st with
      | .error e => .error e
      | .ok (rest', st') => .ok ((nm, par) :: rest', st')
    | some src =>
      match Interpreter.parse src with
      | .error _ => .error (.parseError, st)
      | .ok a =>
        let ds := depsLoop prev [] (NameFinder.names a)
        let par' : Param :=
          { par with ast := some a, deps := some ds,
                     name := match par.name with | none => some nm | some s => some s }
        match assign_deps prev rest (ainsert st nm par.value) with
        | .error e => .error e
        | .ok (rest', st') => .ok ((nm, par') :: rest', st')

mutual

/-- `Fitter.__update_paramval(params, name)` (fitter.py lines 207-221):
depth-first recursive evaluation.  Look the parameter up (Python
`params[name]`, `KeyError` if absent); if it has an expression, lazily
parse when no AST is cached, recursively resolve every name in `deps`
first, evaluate the AST against the shared symbol table (an evaluation
failure raises), and store the resulting value on the parameter;
in every case finally write the parameter's value into the symbol table
under `name`.  `fuel` bounds the recursion depth; exhaustion is the
distinguished `Err.outOfFuel`. -/
def update_paramval : Nat → ParamSet → Symtable → String →
    Except (Err × Symtable) (ParamSet × Symtable)
  | 0, _, st, _ => .error (.outOfFuel, st)
  | fuel + 1, ps, st, name =>
    match alookup ps name with
    | none => .error (.keyError, st)
    | some par =>
      match par.expr with
      | none => .ok (ps, ainsert st name par.value)
      | some src =>
        let ps0 : ParamSet :=
          match par.ast with
          | some _ => ps
          | none => aupdate ps name { par with ast := (Interpreter.parse src).toOption }
        match updateDeps fuel ps0 st (par.deps.getD []) with
        | .error e => .error e
        | .ok (ps1, st1) =>
          match alookup ps1 name with
          | none => .error (.keyError, st1)
          | some par1 =>
            match par1.ast with
            | none => .error (.evalError, st1)
            | some a =>
              match Interpreter.run st1 a with
              | .error _ => .error (.evalError, st1)
              | .ok v =>
                .ok (aupdate ps1 name { par1 with value := some v },
                     ainsert st1 name (some v))
termination_by fuel _ _ _ => (fuel, 0)

/-- The `for dep in par.deps` loop of `__update_paramval` (lines 214-216):
resolve each dependency in order, threading the mutated parameter set and
symbol table, propagating the first failure. -/
def updateDeps : Nat → ParamSet → Symtable → List String →
    Except (Err × Symtable) (ParamSet × Symtable)
  | _, ps, st, [] => .ok (ps, st)
  | fuel, ps, st, d :: ds =>
    match update_paramval fuel ps st d with
    | .error e => .error e
    | .ok (ps1, st1) => updateDeps fuel ps1 st1 ds
termination_by fuel _ _ ds => (fuel, ds.length + 1)

end

/-- The resolution loop of `Fitter.guess` (fitter.py lines 183-185): for
each parameter, in insertion order, whose value is still `None` at its
turn, run `__update_paramval` on `p.name` (Python `params[None]` raises
`KeyError`, so an unset name raises `KeyError` likewise). -/
def resolveLoop (fuel : Nat) : List String → ParamSet → Symtable →
    Except (Err × Symtable) (ParamSet × Symtable)
  | [], ps, st => .ok (ps, st)
  | nm :: rest, ps, st =>
    match alookup ps nm with
    | none => resolveLoop fuel rest ps st
    | some p =>
      if p.value = none then
        match p.name with
        | none => .error (.keyError, st)
        | some pname =>
          match update_paramval fuel ps st pname with
          | .error e => .error e
          | .ok (ps1, st1) => resolveLoop fuel rest ps1 st1
      else resolveLoop fuel rest ps st

/-- One full resolution pass as performed by `Fitter.guess` (lines 182-185):
`__assign_deps` followed by `__update_paramval` for every parameter whose
value is still unset. -/
def resolvePass (fuel : Nat) (prev : ParamSet) (ps : ParamSet) (st : Symtable) :
    Except (Err × Symtable) (ParamSet × Symtable) :=
  match assign_deps prev ps st with
  | .error e => .error e
  | .ok (ps1, st1) => resolveLoop fuel (ps1.map Prod.fst) ps1 st1

/-- Modelled from the spec: the Model capability's guess strategy —
either absent ("may fail with not-implemented to signal unsupported
guessing", the `NotImplementedError` caught by `Fitter.guess`) or a
function of the data and the optional single independent-variable value. -/
inductive GuessCap where
  | notImplemented
  | impl (g : Data → Option Arg → ParamSet)

/-- Modelled from the spec: the Result produced by the Model's fit
capability, exposing the fitted `params` (and `init_params`). -/
structure FitResult where
  params : ParamSet
  init_params : ParamSet
deriving DecidableEq, Repr

/-- Modelled from the spec: the external Model capability consumed by the
controller: `independent_vars`, `make_params() → ParameterSet`,
`guess(...)`, `fit(data, **effective arguments) → Result`. -/
structure Model where
  independent_vars : List String
  make_params : ParamSet
  guessCap : GuessCap
  fitCap : Data → List (String × Arg) → FitResult

/-- The argument accepted by the model setter: a Model instance, or a
zero-argument constructor for one (`if callable(value): model = value()`). -/
inductive ModelValue where
  | inst (m : Model)
  | ctor (c : Unit → Model)

/-- The model a `ModelValue` denotes after the setter's callable check. -/
def modelOf : ModelValue → Model
  | .inst m => m
  | .ctor c => c ()

/-- The fit session (`Fitter`) state: data, session keyword bindings
(`self.kwargs`), the bound model, the last result, the current parameters
and the asteval symbol table.  `guess_button` is `some flag` exactly when
the IPython view layer was present at construction (fitter.py lines
88-90); writing its `disabled` attribute when it is `none` is Python's
`AttributeError`.  The parameter-widget synchronization of the
`current_params` property is the view-layer hook the spec places out of
core scope, so the property reads and writes the stored set directly. -/
structure Fitter where
  data : Data
  kwargs : List (String × Arg)
  model : Model
  current_result : Option FitResult
  current_params : ParamSet
  symtable : Symtable
  guess_button : Option Bool

namespace Fitter

/-- The `try`-block of `Fitter.guess` (fitter.py lines 169-178): branch on
the number of independent variables; look the single independent variable
up in the session bindings (`KeyError` when absent, not caught); call the
model's guess capability; `NotImplementedError` is caught and recorded as
`guessing_disabled`.  Returns the Python local `guess` (`none` = the local
was never assigned) and the `guessing_disabled` flag. -/
def tryGuess (f : Fitter) : Except Err (Option ParamSet × Bool) :=
  match f.model.independent_vars, f.model.guessCap with
  | [], .notImplemented => .ok (none, true)
  | [], .impl g => .ok (some (g f.data none), false)
  | [k], cap =>
    match alookup f.kwargs k with
    | none => .error .keyError
    | some v =>
      match cap with
      | .notImplemented => .ok (none, true)
      | .impl g => .ok (some (g f.data (some v)), false)
  | _ :: _ :: _, _ => .ok (none, false)

/-- `Fitter.guess` (fitter.py lines 166-187).  After the `try`-block the
code unconditionally writes `self.guess_button.disabled` (an
`AttributeError` when the button does not exist), then unconditionally
uses the local `guess` (an `UnboundLocalError` when the `try`-block never
assigned it), runs the resolution pass, and only on success replaces
`current_params`.  The error value carries the session state at the
moment of the raise. -/
def guess (fuel : Nat) (f : Fitter) : Except (Err × Fitter) Fitter :=
  match f.tryGuess with
  | .error e => .error (e, f)
  | .ok (gOpt, disabled) =>
    match f.guess_button with
    | none => .error (.attributeError, f)
    | some _ =>
      let f1 : Fitter := { f with guess_button := some disabled }
      match gOpt with
      | none => .error (.unboundLocal, f1)
      | some g =>
        match resolvePass fuel f.current_params g f.symtable with
        | .error (e, st') => .error (e, { f1 with symtable := st' })
        | .ok (g2, st2) => .ok { f1 with symtable := st2, current_params := g2 }

/-- The state mutations of the model setter before it triggers `guess()`
(fitter.py lines 126-136): instantiate a passed constructor, store the
model, reset `current_result` to `None`, replace `current_params` with a
fresh `make_params()`, and create a fresh (empty) interpreter symbol
table.  The widget teardown/rebuild on those lines is the external view
layer. -/
def bindCore (f : Fitter) (v : ModelValue) : Fitter :=
  { f with model := modelOf v,
           current_result := none,
           current_params := (modelOf v).make_params,
           symtable := [] }

/-- The model setter `Fitter.model =` (fitter.py lines 118-146):
the core mutations followed by the triggered `guess()`. -/
def setModel (fuel : Nat) (f : Fitter) (v : ModelValue) : Except (Err × Fitter) Fitter :=
  guess fuel (f.bindCore v)

/-- The effective call-argument map `Fitter.fit` hands to the model's fit
capability (fitter.py lines 225-227): start from `dict(current_params)`
(name → Parameter), overlay the session bindings `self.kwargs`, overlay
the per-call overrides (highest precedence). -/
def effectiveArgs (f : Fitter) (overrides : List (String × Arg)) : List (String × Arg) :=
  dictUpdate (dictUpdate (f.current_params.map (fun e => (e.1, Arg.param e.2))) f.kwargs)
    overrides

/-- `Fitter.fit` (fitter.py lines 223-229): invoke the model's fit
capability on the data and the effective arguments, store the Result as
`current_result`, and replace `current_params` with the Result's params.
The trailing `plot()` is the external render capability and touches no
session state. -/
def fit (f : Fitter) (overrides : List (String × Arg)) : Fitter :=
  let result := f.model.fitCap f.data (f.effectiveArgs overrides)
  { f with current_result := some result, current_params := result.params }

end Fitter

/-! ## Observation helpers and characterizations used by the theorems -/

/-- Did an embedded Python call return normally (no exception)? -/
def exOk {ε α : Type} : Except ε α → Bool
  | .ok _ => true
  | .error _ => false

/-- Did a `guess` call raise `AttributeError`? -/
def raisedAttributeError : Except (Err × Fitter) Fitter → Bool
  | .error (.attributeError, _) => true
  | _ => false

/-- Did a resolver call exhaust its fuel (the marker for unbounded
recursion)? -/
def ranOut : Except (Err × Symtable) (ParamSet × Symtable) → Bool
  | .error (.outOfFuel, _) => true
  | _ => false

/-- Deduplication keeping the first occurrence of each element, written
independently of the resolver's accumulator loop; used to state what
"deduplicated, preserving first-seen order" means. -/
def dedupFirstSeen : List String → List String
  | [] => []
  | x :: xs => x :: (dedupFirstSeen xs).filter (fun y => y != x)

/-- The spec's description of a derived parameter's `deps` (§4.1 step 3):
the referenced names, in first-seen order, filtered to names present in
the previously established `current_params`, deduplicated. -/
def specDeps (prev : ParamSet) (a : Ast) : List String :=
  dedupFirstSeen ((NameFinder.names a).filter (fun s => (alookup prev s).isSome))

/-- The `deps` field stored at key `nm` by a resolver call, when it
succeeded and the key is present. -/
def depsAssigned (r : Except (Err × Symtable) (ParamSet × Symtable)) (nm : String) :
    Option (Option (List String)) :=
  match r with
  | .ok (ps', _) => (alookup ps' nm).map (fun p => p.deps)
  | .error _ => none

/-- After a successful resolver call, the shared symbol table holds, under
`nm`, exactly the value of the parameter stored at `nm`. -/
def symReflects (r : Except (Err × Symtable) (ParamSet × Symtable)) (nm : String) : Prop :=
  match r with
  | .ok (ps', st') => alookup st' nm = (alookup ps' nm).map (fun p => p.value)
  | .error _ => True

/-- The value of the parameter stored at `nm` after a resolver call. -/
def valueAt (r : Except (Err × Symtable) (ParamSet × Symtable)) (nm : String) :
    Option (Option Int) :=
  match r with
  | .ok (ps', _) => (alookup ps' nm).map (fun p => p.value)
  | .error _ => none

/-- The per-entry effect of `assign_deps` (`none` = the entry's parse
raises): the functional characterization used to reason about the pass. -/
def adEntry (prev : ParamSet) (nm : String) (p : Param) : Option Param :=
  match p.expr with
  | none => some p
  | some src =>
    match Interpreter.parse src with
    | .error _ => none
    | .ok a =>
      some { p with ast := some a,
                    deps := some (depsLoop prev [] (NameFinder.names a)),
                    name := match p.name with | none => some nm | some s => some s }

/-- How a resolver step may change a parameter: `expr`, `deps`, `name` and
the bounds are untouched, the value is untouched or set to a number, the
AST is untouched unless it was unset. -/
def ParamShape (p q : Param) : Prop :=
  q.expr = p.expr ∧ q.deps = p.deps ∧ q.name = p.name ∧ q.minB = p.minB ∧ q.maxB = p.maxB ∧
  (q.value = p.value ∨ ∃ v, q.value = some v) ∧ (q.ast = p.ast ∨ p.ast = none)

/-- Entrywise `ParamShape` with unchanged keys. -/
def entryShape (e e' : String × Param) : Prop := e'.1 = e.1 ∧ ParamShape e.2 e'.2

/-- Every parameter's `name` matches its key — the spec's data-model
invariant for a ParameterSet ("name: unique identifier, scoped to one
ParameterSet"). -/
abbrev wellNamed (ps : ParamSet) : Prop := ∀ e ∈ ps, e.2.name = some e.1

/-- A rank function witnessing that the dependency graph recorded in the
`deps` fields is acyclic: every dependency has strictly smaller rank. -/
abbrev RankedBy (rank : String → Nat) (ps : ParamSet) : Prop :=
  ∀ e ∈ ps, ∀ d ∈ e.2.deps.getD [], rank d < rank e.1

/-- The ParameterSet a resolution pass produced, when it succeeded. -/
def passParams (r : Except (Err × Symtable) (ParamSet × Symtable)) : Option ParamSet :=
  match r with
  | .ok (ps, _) => some ps
  | .error _ => none

/-- After a successful resolution pass, re-running the pass on its output
(same previous parameters, unchanged free values) succeeds and returns
the very same ParameterSet. -/
def idemAfter (fuel : Nat) (prev : ParamSet)
    (r : Except (Err × Symtable) (ParamSet × Symtable)) : Prop :=
  match r with
  | .ok (ps1, st1) => passParams (resolvePass fuel prev ps1 st1) = some ps1
  | .error _ => True

/-- The `guess` call raised a parse error and left `current_params` as it
was before the call. -/
def guessParseErrKeepsParams (fuel : Nat) (f : Fitter) : Prop :=
  match Fitter.guess fuel f with
  | .error (.parseError, f') => f'.current_params = f.current_params
  | _ => False

/-! ## Concrete instances used by witnesses and counterexamples -/

/-- A free (expressionless) parameter with the given name and value. -/
def mkFreeParam (nm : String) (v : Option Int) : Param :=
  ⟨some nm, v, none, none, none, none, none⟩

/-- A derived parameter with the given expression source and unset value. -/
def mkExprParam (nm : String) (src : ExprSrc) : Param :=
  ⟨some nm, none, none, none, some src, none, none⟩

/-- The spec's worked example expression for `c`: `a + b`. -/
def astAB : Ast := .add (.var "a") (.var "b")

/-- The spec's worked example set: free `a = 2`, free `b = 3`, derived
`c` with expression `a + b` and unset value. -/
def psABC : ParamSet :=
  [("a", mkFreeParam "a" (some 2)), ("b", mkFreeParam "b" (some 3)),
   ("c", mkExprParam "c" (.src astAB))]

/-- Resolving the worked example: `assign_deps` over `psABC` (with itself
as the established parameters), then `__update_paramval` on `c`. -/
def exampleRun1 : Except (Err × Symtable) (ParamSet × Symtable) :=
  match assign_deps psABC psABC [] with
  | .error e => .error e
  | .ok (ps1, st1) => update_paramval 3 ps1 st1 "c"

/-- The worked example continued: change `a` to `10` in the resolved set
and re-resolve `c` with `__update_paramval`. -/
def exampleRun2 : Except (Err × Symtable) (ParamSet × Symtable) :=
  match exampleRun1 with
  | .error e => .error e
  | .ok (ps1, st1) =>
    match alookup ps1 "a" with
    | none => .error (.keyError, st1)
    | some pa => update_paramval 3 (aupdate ps1 "a" { pa with value := some 10 }) st1 "c"

/-- The cyclic pair of the spec's open question: `a` depends on `b` and
`b` depends on `a` (deps and ASTs as `assign_deps` would store them). -/
def psCyclic : ParamSet :=
  [("a", ⟨some "a", none, none, none, some (.src (.var "b")), some (.var "b"), some ["b"]⟩),
   ("b", ⟨some "b", none, none, none, some (.src (.var "a")), some (.var "a"), some ["a"]⟩)]

/-- An acyclic resolved-deps set: free `a`, `b` and derived `c` whose
`deps` are already assigned. -/
def psAcyc : ParamSet :=
  [("a", mkFreeParam "a" (some 2)), ("b", mkFreeParam "b" (some 3)),
   ("c", ⟨some "c", none, none, none, some (.src astAB), some astAB, some ["a", "b"]⟩)]

/-- A rank function witnessing that `psAcyc`'s dependency graph is acyclic. -/
def rankAC : String → Nat := fun s => if s = "c" then 1 else 0

/-- A model with no independent variables whose capabilities are inert;
used where only the controller's bookkeeping is at stake. -/
def mTrivial : Model :=
  ⟨[], [], .impl (fun _ _ => []), fun _ _ => ⟨[("r", mkFreeParam "r" (some 0))], []⟩⟩

/-- A session with binding `foo = 1`, for the override-layering example. -/
def fitterC2 : Fitter := ⟨[], [("foo", .num 1)], mTrivial, none, [], [], some false⟩

/-- A model declaring two independent variables. -/
def mTwoVars : Model := ⟨["x", "y"], [], .impl (fun _ _ => []), fun _ _ => ⟨[], []⟩⟩

/-- A bound session (view present) whose model declares two independent
variables. -/
def fitterTwoVars : Fitter := ⟨[], [], mTwoVars, none, [], [], some false⟩

/-- A model with no guess strategy (`guess` raises `NotImplementedError`). -/
def mNoGuess : Model := ⟨[], [], .notImplemented, fun _ _ => ⟨[], []⟩⟩

/-- A bound session (view present) whose model has no guess strategy. -/
def fitterNoGuess : Fitter := ⟨[], [], mNoGuess, none, [], [], some false⟩

/-- A model with one independent variable `x`. -/
def mOneVar : Model := ⟨["x"], [], .impl (fun _ _ => []), fun _ _ => ⟨[], []⟩⟩

/-- A view-less session (`guess_button` absent) whose model needs the
binding `x`, which the session does not hold. -/
def fitterNoView : Fitter := ⟨[], [], mOneVar, none, [], [], none⟩

/-- A zero-independent-variable model whose guess capability returns a
one-parameter set. -/
def mZeroVar : Model :=
  ⟨[], [("p", mkFreeParam "p" (some 1))], .impl (fun _ _ => [("p", mkFreeParam "p" (some 1))]),
   fun _ _ => ⟨[], []⟩⟩

/-- A view-less session whose `try`-block completes normally. -/
def fitterNoView0 : Fitter := ⟨[], [], mZeroVar, none, [], [], none⟩

/-- A parameter whose expression source is malformed. -/
def paramMalformed : Param := mkExprParam "bad" .malformed

/-- A model whose guess capability returns a set containing a
malformed-expression parameter. -/
def mGuessMalformed : Model :=
  ⟨[], [], .impl (fun _ _ => [("ok", mkFreeParam "ok" (some 1)), ("bad", paramMalformed)]),
   fun _ _ => ⟨[], []⟩⟩

/-- A session (view present) whose next guess will meet the malformed
expression during resolution. -/
def fitterGuessMalformed : Fitter :=
  ⟨[], [], mGuessMalformed, none, [("prev", mkFreeParam "prev" (some 7))], [], some false⟩

/-- A model whose fit capability returns a fixed result set. -/
def mFitR : Model :=
  ⟨[], [], .notImplemented, fun _ _ => ⟨[("r", mkFreeParam "r" (some 42))], []⟩⟩

/-- A session whose `current_params` holds a malformed-expression
parameter at the time `fit()` is called. -/
def fitterFitMalformed : Fitter :=
  ⟨[], [], mFitR, none, [("bad", paramMalformed)], [], some false⟩

/-! ## Association-list lemmas -/

theorem alookup_aupdate_self {α : Type} (l : List (String × α)) (k : String) (v : α) :
    alookup (aupdate l k v) k = (alookup l k).map (fun _ => v) := by
  induction l with
  | nil => simp [alookup, aupdate]
  | cons hd tl ih =>
    obtain ⟨k0, v0⟩ := hd
    by_cases h : k0 = k
    · subst h; simp [alookup, aupdate]
    · simp [alookup, aupdate, h, ih]

theorem alookup_aupdate_ne {α : Type} (l : List (String × α)) (k k' : String) (v : α)
    (h : k' ≠ k) : alookup (aupdate l k v) k' = alookup l k' := by
  induction l with
  | nil => simp [alookup, aupdate]
  | cons hd tl ih =>
    obtain ⟨k0, v0⟩ := hd
    by_cases h0 : k0 = k
    · subst h0
      have hne : ¬ (k0 = k') := fun hh => h hh.symm
      simp [aupdate, alookup, hne]
    · simp only [aupdate, if_neg h0, alookup]
      by_cases h1 : k0 = k'
      · simp [h1]
      · simp [h1, ih]

theorem alookup_append {α : Type} (l l' : List (String × α)) (k : String) :
    alookup (l ++ l') k = ((alookup l k).rec (alookup l' k) (fun v => some v)) := by
  induction l with
  | nil => simp [alookup]
  | cons hd tl ih =>
    obtain ⟨k0, v0⟩ := hd
    by_cases h : k0 = k <;> simp [alookup, h, ih]

theorem alookup_ainsert_self {α : Type} (l : List (String × α)) (k : String) (v : α) :
    alookup (ainsert l k v) k = some v := by
  unfold ainsert
  by_cases h : (alookup l k).isSome
  · rw [if_pos h, alookup_aupdate_self]
    obtain ⟨w, hw⟩ := Option.isSome_iff_exists.mp h
    simp [hw]
  · rw [if_neg h, alookup_append]
    have : alookup l k = none := Option.not_isSome_iff_eq_none.mp h
    simp [this, alookup]

theorem alookup_ainsert_ne {α : Type} (l : List (String × α)) (k k' : String) (v : α)
    (h : k' ≠ k) : alookup (ainsert l k v) k' = alookup l k' := by
  unfold ainsert
  by_cases hs : (alookup l k).isSome
  · rw [if_pos hs, alookup_aupdate_ne _ _ _ _ h]
  · rw [if_neg hs, alookup_append]
    cases hl : alookup l k' with
    | none =>
      have hne : ¬ (k = k') := fun hh => h hh.symm
      simp [alookup, hne]
    | some w => simp

theorem aupdate_map_fst {α : Type} (l : List (String × α)) (k : String) (v : α) :
    (aupdate l k v).map Prod.fst = l.map Prod.fst := by
  induction l with
  | nil => simp [aupdate]
  | cons hd tl ih =>
    obtain ⟨k0, v0⟩ := hd
    by_cases h : k0 = k <;> simp [aupdate, h, ih]

theorem dictUpdate_lookup_notmem (base upd : List (String × Arg)) (k : String)
    (h : k ∉ upd.map Prod.fst) : alookup (dictUpdate base upd) k = alookup base k := by
  induction upd generalizing base with
  | nil => simp [dictUpdate]
  | cons hd tl ih =>
    obtain ⟨k0, v0⟩ := hd
    simp only [List.map_cons, List.mem_cons] at h
    push_neg at h
    simp only [dictUpdate]
    rw [ih _ h.2, alookup_ainsert_ne _ _ _ _ h.1]

theorem dictUpdate_lookup_mem (base upd : List (String × Arg)) (k : String) (a : Arg)
    (hnd : (upd.map Prod.fst).Nodup) (h : alookup upd k = some a) :
    alookup (dictUpdate base upd) k = some a := by
  induction upd generalizing base with
  | nil => simp [alookup] at h
  | cons hd tl ih =>
    obtain ⟨k0, v0⟩ := hd
    simp only [List.map_cons, List.nodup_cons] at hnd
    by_cases hk : k0 = k
    · subst hk
      have hv : v0 = a := by simpa [alookup] using h
      subst hv
      simp only [dictUpdate]
      rw [dictUpdate_lookup_notmem _ _ _ hnd.1, alookup_ainsert_self]
    · simp only [alookup, if_neg hk] at h
      simp only [dictUpdate]
      exact ih _ hnd.2 h

/-! ## The deps loop computes the spec's dependency list -/

theorem contains_eq_decide_mem (l : List String) (x : String) :
    l.contains x = decide (x ∈ l) :=
  List.elem_eq_mem x l

theorem depsLoop_spec (prev : ParamSet) :
    ∀ (ns acc : List String),
      depsLoop prev acc ns =
        acc ++ (dedupFirstSeen (ns.filter (fun s => (alookup prev s).isSome))).filter
          (fun x => ! acc.contains x) := by
  intro ns
  induction ns with
  | nil => intro acc; simp [depsLoop, dedupFirstSeen]
  | cons n rest ih =>
    intro acc
    show (if (alookup prev n).isSome ∧ ¬ acc.contains n
          then depsLoop prev (acc ++ [n]) rest
          else depsLoop prev acc rest) = _
    by_cases hk : (alookup prev n).isSome
    · by_cases hc : acc.contains n
      · have hcm : n ∈ acc := by
          have := contains_eq_decide_mem acc n
          rw [hc] at this
          exact of_decide_eq_true this.symm
        rw [if_neg (fun hcond => hcond.2 hc), ih acc]
        rw [List.filter_cons, if_pos hk]
        rw [show dedupFirstSeen (n :: rest.filter (fun s => (alookup prev s).isSome)) =
              n :: (dedupFirstSeen (rest.filter (fun s => (alookup prev s).isSome))).filter
                (fun y => y != n) from rfl]
        rw [List.filter_cons]
        rw [if_neg (by simp [contains_eq_decide_mem, hcm])]
        rw [List.filter_filter]
        congr 1
        apply List.filter_congr
        intro x _
        by_cases hx : x ∈ acc
        · simp [contains_eq_decide_mem, hx]
        · have hxn : x ≠ n := fun hh => hx (hh ▸ hcm)
          simp [contains_eq_decide_mem, hx, bne_iff_ne, hxn]
      · have hcm : n ∉ acc := by
          intro hmem
          have := contains_eq_decide_mem acc n
          rw [decide_eq_true hmem] at this
          exact hc this
        rw [if_pos ⟨hk, hc⟩, ih (acc ++ [n])]
        rw [List.filter_cons, if_pos hk]
        rw [show dedupFirstSeen (n :: rest.filter (fun s => (alookup prev s).isSome)) =
              n :: (dedupFirstSeen (rest.filter (fun s => (alookup prev s).isSome))).filter
                (fun y => y != n) from rfl]
        rw [List.filter_cons]
        rw [if_pos (by simp [contains_eq_decide_mem, hcm])]
        rw [List.filter_filter, List.append_assoc, List.singleton_append]
        congr 2
        apply List.filter_congr
        intro x _
        by_cases hx : x ∈ acc
        · have hxm : x ∈ acc ++ [n] := List.mem_append_left _ hx
          simp [contains_eq_decide_mem, hx, hxm]
        · by_cases hxn : x = n
          · subst hxn
            have hxm : x ∈ acc ++ [x] := List.mem_append_right _ (List.mem_singleton_self x)
            simp [contains_eq_decide_mem, hxm]
          · have hxm : x ∉ acc ++ [n] := by
              intro hh
              rcases List.mem_append.mp hh with h1 | h2
              · exact hx h1
              · exact hxn (List.mem_singleton.mp h2)
            simp [contains_eq_decide_mem, hxm, hx, bne_iff_ne, hxn]
    · rw [if_neg (fun hcond => hk hcond.1), ih acc, List.filter_cons,
          if_neg (by simpa using hk)]

theorem depsLoop_nil_acc (prev : ParamSet) (ns : List String) :
    depsLoop prev [] ns = dedupFirstSeen (ns.filter (fun s => (alookup prev s).isSome)) := by
  rw [depsLoop_spec]
  simp [List.contains]

/-! ## assign_deps facts -/

theorem assign_deps_stores_specDeps :
    ∀ (prev : ParamSet) (g : List (String × Param)) (st : Symtable) (nm : String)
      (p : Param) (a : Ast),
      alookup g nm = some p → p.expr = some (.src a) → exOk (assign_deps prev g st) = true →
      depsAssigned (assign_deps prev g st) nm = some (some (specDeps prev a)) := by
  intro prev g
  induction g with
  | nil => intro st nm p a hp _ _; simp [alookup] at hp
  | cons e rest ih =>
    obtain ⟨k0, p0⟩ := e
    intro st nm p a hp hexpr hok
    by_cases hk : k0 = nm
    · subst hk
      have hp0 : p0 = p := by simpa [alookup] using hp
      subst hp0
      cases hrec : assign_deps prev rest (ainsert st k0 p0.value) with
      | error e => simp [assign_deps, hexpr, Interpreter.parse, hrec, exOk] at hok
      | ok r =>
        obtain ⟨rest', st'⟩ := r
        simp [assign_deps, hexpr, Interpreter.parse, hrec, depsAssigned, alookup,
              specDeps, depsLoop_nil_acc]
    · have hp' : alookup rest nm = some p := by
        simpa [alookup, hk] using hp
      cases hexpr0 : p0.expr with
      | none =>
        cases hrec : assign_deps prev rest st with
        | error e => simp [assign_deps, hexpr0, hrec, exOk] at hok
        | ok r =>
          obtain ⟨rest', st'⟩ := r
          have hrest := ih st nm p a hp' hexpr (by simp [hrec, exOk])
          rw [hrec] at hrest
          simp only [depsAssigned] at hrest
          simp only [assign_deps, hexpr0, hrec]
          simpa [depsAssigned, alookup, hk] using hrest
      | some src0 =>
        cases hsrc : Interpreter.parse src0 with
        | error u => simp [assign_deps, hexpr0, hsrc, exOk] at hok
        | ok a0 =>
          cases hrec : assign_deps prev rest (ainsert st k0 p0.value) with
          | error e => simp [assign_deps, hexpr0, hsrc, hrec, exOk] at hok
          | ok r =>
            obtain ⟨rest', st'⟩ := r
            have hrest := ih (ainsert st k0 p0.value) nm p a hp' hexpr (by simp [hrec, exOk])
            rw [hrec] at hrest
            simp only [depsAssigned] at hrest
            simp only [assign_deps, hexpr0, hsrc, hrec]
            simpa [depsAssigned, alookup, hk] using hrest

theorem assign_deps_malformed :
    ∀ (prev : ParamSet) (g : List (String × Param)) (st : Symtable),
      (∃ e ∈ g, e.2.expr = some ExprSrc.malformed) →
      ∃ st', assign_deps prev g st = .error (.parseError, st') := by
  intro prev g
  induction g with
  | nil => intro st h; simp at h
  | cons e0 rest ih =>
    obtain ⟨nm, p⟩ := e0
    intro st h
    rcases h with ⟨e', he', hm⟩
    rcases List.mem_cons.mp he' with heq | hrest
    · subst heq
      have hm' : p.expr = some ExprSrc.malformed := hm
      exact ⟨st, by simp [assign_deps, hm', Interpreter.parse]⟩
    · cases hexpr : p.expr with
      | none =>
        obtain ⟨st', hst'⟩ := ih st ⟨e', hrest, hm⟩
        exact ⟨st', by simp [assign_deps, hexpr, hst']⟩
      | some src =>
        cases hsrc : Interpreter.parse src with
        | error u => exact ⟨st, by simp [assign_deps, hexpr, hsrc]⟩
        | ok a =>
          obtain ⟨st', hst'⟩ := ih (ainsert st nm p.value) ⟨e', hrest, hm⟩
          exact ⟨st', by simp [assign_deps, hexpr, hsrc, hst']⟩

/-! ## Claim theorems: session contracts -/

/-- C1: every `fit()` call stores the model's Result as `current_result`
and replaces `current_params` with that very Result's `params` (in the
embedding, sameness of the stored set — the rendering of the source's
object identity `self.current_params = self.current_result.params`), so
each fit's output is the starting point of the next fit. -/
theorem fit_result_becomes_current (f : Fitter) (overrides : List (String × Arg)) :
    ∃ r : FitResult, (f.fit overrides).current_result = some r ∧
      (f.fit overrides).current_params = r.params :=
  ⟨f.model.fitCap f.data (f.effectiveArgs overrides), rfl, rfl⟩

/-- C2: `fit(overrides)` invokes the model's fit capability on the
effective arguments built as current-params values overlaid by the
session bindings overlaid by the per-call overrides; a name present in
the overrides resolves to its override value (highest precedence), and
the session bindings are not mutated by the call. -/
theorem fit_override_precedence (f : Fitter) (overrides : List (String × Arg))
    (k : String) (a : Arg) (hnd : (overrides.map Prod.fst).Nodup)
    (hk : alookup overrides k = some a) :
    (f.fit overrides).current_result =
        some (f.model.fitCap f.data (f.effectiveArgs overrides)) ∧
    alookup (f.effectiveArgs overrides) k = some a ∧
    (f.fit overrides).kwargs = f.kwargs :=
  ⟨rfl, dictUpdate_lookup_mem _ _ _ _ hnd hk, rfl⟩

/-- C2 witness: with session binding `foo = 1`, calling `fit(foo := 5)`
uses `5` for the invocation and leaves the binding at `1`. -/
theorem fit_override_precedence_witness :
    alookup (fitterC2.effectiveArgs [("foo", .num 5)]) "foo" = some (.num 5) ∧
    (fitterC2.fit [("foo", .num 5)]).kwargs = fitterC2.kwargs ∧
    alookup fitterC2.kwargs "foo" = some (.num 1) :=
  ⟨(fit_override_precedence fitterC2 [("foo", .num 5)] "foo" (.num 5)
      (by decide) (by decide)).2.1,
   (fit_override_precedence fitterC2 [("foo", .num 5)] "foo" (.num 5)
      (by decide) (by decide)).2.2,
   by decide⟩

/-- C8: assigning a model (instance or zero-argument constructor, which
is instantiated) performs exactly: store the denoted model, reset
`current_result` to `None`, replace `current_params` with a fresh
`make_params()`, create a new empty interpreter symbol table, and then
trigger `guess()`; data and session bindings are untouched. -/
theorem model_setter_contract (fuel : Nat) (f : Fitter) (v : ModelValue) :
    Fitter.setModel fuel f v = Fitter.guess fuel (f.bindCore v) ∧
    (f.bindCore v).current_result = none ∧
    (f.bindCore v).current_params = (modelOf v).make_params ∧
    (f.bindCore v).symtable = [] ∧
    (f.bindCore v).model = modelOf v ∧
    (f.bindCore v).data = f.data ∧
    (f.bindCore v).kwargs = f.kwargs :=
  ⟨rfl, rfl, rfl, rfl, rfl, rfl, rfl⟩

/-- C3 (the code's actual behaviour, contradicting its own graceful-
degradation intent): with two independent variables, or with a guess
capability that signals not-implemented, `guess()` raises
`UnboundLocalError` at `self.__assign_deps(guess)` because the local
`guess` was never assigned — and in the two-variable case the disabled
flag is left `False` rather than set. -/
theorem guess_unbound_local_on_unsupported :
    Fitter.guess 3 fitterTwoVars =
        .error (.unboundLocal, { fitterTwoVars with guess_button := some false }) ∧
    Fitter.guess 3 fitterNoGuess =
        .error (.unboundLocal, { fitterNoGuess with guess_button := some true }) :=
  ⟨rfl, rfl⟩

/-- C4 (amended): in a session without the view layer (`guess_button`
absent), no `guess()` call can return normally, and every call whose
`try`-block completes raises `AttributeError` at the guess-button write
with the session — in particular `current_params` — untouched; hence no
model can be bound.  (A call whose `try`-block itself raises, e.g. a
missing binding's `KeyError`, propagates that error instead.) -/
theorem guess_needs_view (fuel : Nat) (f : Fitter) (v : ModelValue)
    (h : f.guess_button = none) :
    exOk (Fitter.guess fuel f) = false ∧
    (exOk f.tryGuess = true → Fitter.guess fuel f = .error (.attributeError, f)) ∧
    exOk (Fitter.setModel fuel f v) = false := by
  have key : ∀ (g : Fitter), g.guess_button = none →
      exOk (Fitter.guess fuel g) = false ∧
      (exOk g.tryGuess = true → Fitter.guess fuel g = .error (.attributeError, g)) := by
    intro g hg
    cases htry : g.tryGuess with
    | error e =>
      refine ⟨by simp [Fitter.guess, htry, exOk], fun hok => ?_⟩
      simp [exOk] at hok
    | ok r =>
      obtain ⟨gOpt, dis⟩ := r
      exact ⟨by simp [Fitter.guess, htry, hg, exOk],
             fun _ => by simp [Fitter.guess, htry, hg]⟩
  have hbind : (f.bindCore v).guess_button = none := h
  exact ⟨(key f h).1, (key f h).2, (key (f.bindCore v) hbind).1⟩

/-- C4 witness: a view-less session whose `try`-block completes; its
`guess()` raises `AttributeError` with the session unchanged, and
binding a model through the setter cannot succeed either. -/
theorem guess_needs_view_witness :
    fitterNoView0.guess_button = none ∧
    exOk (Fitter.guess 3 fitterNoView0) = false ∧
    exOk fitterNoView0.tryGuess = true ∧
    Fitter.guess 3 fitterNoView0 = .error (.attributeError, fitterNoView0) ∧
    exOk (Fitter.setModel 3 fitterNoView0 (.inst mZeroVar)) = false :=
  ⟨rfl, (guess_needs_view 3 fitterNoView0 (.inst mZeroVar) rfl).1, rfl,
   (guess_needs_view 3 fitterNoView0 (.inst mZeroVar) rfl).2.1 rfl,
   (guess_needs_view 3 fitterNoView0 (.inst mZeroVar) rfl).2.2⟩

/-- C4 counterexample: a view-less session with one independent variable
and no binding for it raises `KeyError` — not `AttributeError` — from
`guess()`, so "every call raises an attribute error" is false as
stated. -/
theorem guess_keyerror_not_attribute :
    Fitter.guess 3 fitterNoView = .error (.keyError, fitterNoView) ∧
    raisedAttributeError (Fitter.guess 3 fitterNoView) = false :=
  ⟨rfl, rfl⟩

/-- C5 (amended): a `guess()` call that reaches the resolution pass on a
guessed ParameterSet containing a malformed expression source raises a
parse error and leaves `current_params` exactly as it was before the
call; `fit()` never runs the resolution pass (see the counterexample),
so only guess calls can raise it. -/
theorem guess_parse_error_keeps_params (fuel : Nat) (f : Fitter) (g : ParamSet)
    (dis b : Bool) (h1 : f.tryGuess = .ok (some g, dis)) (h2 : f.guess_button = some b)
    (h3 : ∃ e ∈ g, e.2.expr = some ExprSrc.malformed) :
    guessParseErrKeepsParams fuel f := by
  obtain ⟨st', hst'⟩ := assign_deps_malformed f.current_params g f.symtable h3
  unfold guessParseErrKeepsParams Fitter.guess
  simp [h1, h2, resolvePass, hst']

/-- C5 witness: a session whose model's guess produces a set holding a
malformed-expression parameter; `guess()` raises the parse error and
`current_params` is unchanged. -/
theorem guess_parse_error_keeps_params_witness :
    fitterGuessMalformed.tryGuess =
        .ok (some [("ok", mkFreeParam "ok" (some 1)), ("bad", paramMalformed)], false) ∧
    fitterGuessMalformed.guess_button = some false ∧
    guessParseErrKeepsParams 3 fitterGuessMalformed :=
  ⟨rfl, rfl,
   guess_parse_error_keeps_params 3 fitterGuessMalformed
     [("ok", mkFreeParam "ok" (some 1)), ("bad", paramMalformed)] false false rfl rfl
     (by decide)⟩

/-- C5 counterexample: `fit()` with a malformed-expression parameter in
`current_params` raises no parse error — it completes, hands the
parameters to the model's fit capability, and replaces
`current_params` — because `fit()` never runs the resolution pass. -/
theorem fit_ignores_malformed_expr :
    alookup fitterFitMalformed.current_params "bad" = some paramMalformed ∧
    paramMalformed.expr = some ExprSrc.malformed ∧
    (fitterFitMalformed.fit []).current_params = [("r", mkFreeParam "r" (some 42))] ∧
    (fitterFitMalformed.fit []).current_params ≠ fitterFitMalformed.current_params :=
  ⟨by decide, by decide, by decide, by decide⟩

/-- C7: for every parameter with a well-formed expression in a set the
resolution pass accepted, `assign_deps` stores as its `deps` exactly the
free-variable names of the parsed expression that are keys of the
previously established `current_params`, deduplicated in first-seen
order (`specDeps` is that description, written independently of the
accumulator loop). -/
theorem assign_deps_deps_are_specDeps (prev : ParamSet) (g : List (String × Param))
    (st : Symtable) (nm : String) (p : Param) (a : Ast)
    (hp : alookup g nm = some p) (hexpr : p.expr = some (.src a))
    (hok : exOk (assign_deps prev g st) = true) :
    depsAssigned (assign_deps prev g st) nm = some (some (specDeps prev a)) :=
  assign_deps_stores_specDeps prev g st nm p a hp hexpr hok

/-- C7 witness: in the worked example, `c`'s stored deps are exactly
`specDeps` of `a + b`, i.e. `["a", "b"]`. -/
theorem assign_deps_deps_are_specDeps_witness :
    alookup psABC "c" = some (mkExprParam "c" (.src astAB)) ∧
    (mkExprParam "c" (.src astAB)).expr = some (.src astAB) ∧
    exOk (assign_deps psABC psABC []) = true ∧
    depsAssigned (assign_deps psABC psABC []) "c" = some (some (specDeps psABC astAB)) ∧
    specDeps psABC astAB = ["a", "b"] :=
  ⟨by decide, by decide, by decide,
   assign_deps_deps_are_specDeps psABC psABC [] "c" (mkExprParam "c" (.src astAB)) astAB
     (by decide) (by decide) (by decide),
   by decide⟩

/-! ## update_paramval writes the symbol table and follows deps (C6) -/

theorem update_paramval_writes_symtable (fuel : Nat) (ps : ParamSet) (st : Symtable)
    (nm : String) : symReflects (update_paramval fuel ps st nm) nm := by
  cases fuel with
  | zero => simp [update_paramval, symReflects]
  | succ n =>
    cases hp : alookup ps nm with
    | none => simp [update_paramval, hp, symReflects]
    | some par =>
      cases hexpr : par.expr with
      | none =>
        simp [update_paramval, hp, hexpr, symReflects, alookup_ainsert_self]
      | some src =>
        cases hast : par.ast with
        | some a0 =>
          cases hd : updateDeps n ps st (par.deps.getD []) with
          | error e => simp [update_paramval, hp, hexpr, hast, hd, symReflects]
          | ok r =>
            obtain ⟨ps1, st1⟩ := r
            cases hp1 : alookup ps1 nm with
            | none => simp [update_paramval, hp, hexpr, hast, hd, hp1, symReflects]
            | some par1 =>
              cases ha : par1.ast with
              | none => simp [update_paramval, hp, hexpr, hast, hd, hp1, ha, symReflects]
              | some a =>
                cases hrun : Interpreter.run st1 a with
                | error u =>
                  simp [update_paramval, hp, hexpr, hast, hd, hp1, ha, hrun, symReflects]
                | ok v =>
                  simp [update_paramval, hp, hexpr, hast, hd, hp1, ha, hrun, symReflects,
                        alookup_ainsert_self, alookup_aupdate_self]
        | none =>
          cases hd : updateDeps n
              (aupdate ps nm
                { par with expr := some src, ast := (Interpreter.parse src).toOption }) st
              (par.deps.getD []) with
          | error e => simp [update_paramval, hp, hexpr, hast, hd, symReflects]
          | ok r =>
            obtain ⟨ps1, st1⟩ := r
            cases hp1 : alookup ps1 nm with
            | none => simp [update_paramval, hp, hexpr, hast, hd, hp1, symReflects]
            | some par1 =>
              cases ha : par1.ast with
              | none => simp [update_paramval, hp, hexpr, hast, hd, hp1, ha, symReflects]
              | some a =>
                cases hrun : Interpreter.run st1 a with
                | error u =>
                  simp [update_paramval, hp, hexpr, hast, hd, hp1, ha, hrun, symReflects]
                | ok v =>
                  simp [update_paramval, hp, hexpr, hast, hd, hp1, ha, hrun, symReflects,
                        alookup_ainsert_self, alookup_aupdate_self]

/-- C6: `__update_paramval` resolves every name in the parameter's deps
list depth-first before evaluating its expression, and writes every
visited parameter's resulting value — derived or plain — into the shared
symbol table under its name (first conjunct, for every call that
returns); consequently, in the worked example with free `a = 2`, `b = 3`
and `c` with expression `a + b`, resolution yields `c.value = 5`, and
after changing `a` to `10`, re-resolving `c` yields `13`. -/
theorem update_paramval_depth_first_values :
    (∀ (fuel : Nat) (ps : ParamSet) (st : Symtable) (nm : String),
        symReflects (update_paramval fuel ps st nm) nm) ∧
    valueAt exampleRun1 "c" = some (some 5) ∧
    valueAt exampleRun2 "c" = some (some 13) :=
  ⟨update_paramval_writes_symtable,
   by simp [exampleRun1, valueAt, assign_deps, psABC, mkFreeParam, mkExprParam, astAB,
            Interpreter.parse, depsLoop, NameFinder.names, alookup, ainsert, aupdate,
            update_paramval, updateDeps, Interpreter.run],
   by simp [exampleRun2, exampleRun1, valueAt, assign_deps, psABC, mkFreeParam, mkExprParam,
            astAB, Interpreter.parse, depsLoop, NameFinder.names, alookup, ainsert, aupdate,
            update_paramval, updateDeps, Interpreter.run]⟩

/-! ## Shape preservation of the resolver -/

theorem paramShape_refl (p : Param) : ParamShape p p :=
  ⟨rfl, rfl, rfl, rfl, rfl, Or.inl rfl, Or.inl rfl⟩

theorem paramShape_trans {p q r : Param} (h1 : ParamShape p q) (h2 : ParamShape q r) :
    ParamShape p r := by
  obtain ⟨e1, d1, n1, mi1, ma1, v1, a1⟩ := h1
  obtain ⟨e2, d2, n2, mi2, ma2, v2, a2⟩ := h2
  refine ⟨e2.trans e1, d2.trans d1, n2.trans n1, mi2.trans mi1, ma2.trans ma1, ?_, ?_⟩
  · rcases v2 with hv | ⟨v, hv⟩
    · rcases v1 with hv' | ⟨v', hv'⟩
      · exact Or.inl (hv.trans hv')
      · exact Or.inr ⟨v', hv.trans hv'⟩
    · exact Or.inr ⟨v, hv⟩
  · rcases a2 with ha | ha
    · rcases a1 with ha' | ha'
      · exact Or.inl (ha.trans ha')
      · exact Or.inr ha'
    · rcases a1 with ha' | ha'
      · exact Or.inr (ha' ▸ ha)
      · exact Or.inr ha'

theorem entryShape_refl (l : ParamSet) : List.Forall₂ entryShape l l := by
  induction l with
  | nil => exact List.Forall₂.nil
  | cons e rest ih => exact List.Forall₂.cons ⟨rfl, paramShape_refl e.2⟩ ih

theorem entryShape_trans : ∀ {a b c : ParamSet},
    List.Forall₂ entryShape a b → List.Forall₂ entryShape b c →
    List.Forall₂ entryShape a c := by
  intro a b c h1
  induction h1 generalizing c with
  | nil => intro h2; cases h2; exact .nil
  | cons hab _ ih =>
    intro h2
    cases h2 with
    | cons hbc tail2 =>
      exact .cons ⟨hbc.1.trans hab.1, paramShape_trans hab.2 hbc.2⟩ (ih tail2)

theorem entryShape_alookup : ∀ {a b : ParamSet}, List.Forall₂ entryShape a b →
    ∀ k : String,
      (alookup a k = none ∧ alookup b k = none) ∨
      (∃ p q, alookup a k = some p ∧ alookup b k = some q ∧ ParamShape p q) := by
  intro a
  induction a with
  | nil => intro b h k; cases h; exact Or.inl ⟨rfl, rfl⟩
  | cons x xs ih =>
    intro b h k
    cases h with
    | cons hxy htail =>
      rename_i y ys
      obtain ⟨xk, xv⟩ := x
      obtain ⟨yk, yv⟩ := y
      obtain ⟨hkey, hshape⟩ := hxy
      have hyx : yk = xk := hkey
      subst hyx
      by_cases hk : yk = k
      · exact Or.inr ⟨xv, yv, by simp [alookup, hk], by simp [alookup, hk], hshape⟩
      · rcases ih htail k with ⟨h1, h2⟩ | ⟨p, q, h1, h2, h3⟩
        · exact Or.inl ⟨by simp [alookup, hk, h1], by simp [alookup, hk, h2]⟩
        · exact Or.inr ⟨p, q, by simp [alookup, hk, h1], by simp [alookup, hk, h2], h3⟩

theorem entryShape_keys : ∀ {a b : ParamSet}, List.Forall₂ entryShape a b →
    b.map Prod.fst = a.map Prod.fst := by
  intro a
  induction a with
  | nil => intro b h; cases h; rfl
  | cons x xs ih =>
    intro b h
    cases h with
    | cons hxy htail =>
      simp only [List.map_cons]
      rw [hxy.1, ih htail]

theorem forall₂_mem_right : ∀ {a b : ParamSet}, List.Forall₂ entryShape a b →
    ∀ e' ∈ b, ∃ e ∈ a, entryShape e e' := by
  intro a
  induction a with
  | nil => intro b h e' he'; cases h; simp at he'
  | cons x xs ih =>
    intro b h e' he'
    cases h with
    | cons hxy htail =>
      rcases List.mem_cons.mp he' with heq | hmem
      · subst heq
        exact ⟨x, List.mem_cons_self _ _, hxy⟩
      · obtain ⟨e, he, hsh⟩ := ih htail e' hmem
        exact ⟨e, List.mem_cons_of_mem _ he, hsh⟩

theorem alookup_mem {α : Type} : ∀ (l : List (String × α)) (k : String) (v : α),
    alookup l k = some v → (k, v) ∈ l := by
  intro l
  induction l with
  | nil => intro k v h; simp [alookup] at h
  | cons x xs ih =>
    intro k v h
    obtain ⟨xk, xv⟩ := x
    by_cases hk : xk = k
    · subst hk
      have : xv = v := by simpa [alookup] using h
      subst this
      exact List.mem_cons_self _ _
    · rw [show alookup ((xk, xv) :: xs) k = alookup xs k from by simp [alookup, hk]] at h
      exact List.mem_cons_of_mem _ (ih k v h)

theorem entryShape_aupdate : ∀ (ps : ParamSet) (nm : String) (q : Param),
    (∀ p, alookup ps nm = some p → ParamShape p q) →
    List.Forall₂ entryShape ps (aupdate ps nm q) := by
  intro ps
  induction ps with
  | nil => intro nm q _; exact .nil
  | cons x xs ih =>
    intro nm q h
    obtain ⟨xk, xv⟩ := x
    by_cases hk : xk = nm
    · rw [show aupdate ((xk, xv) :: xs) nm q = (xk, q) :: xs from by simp [aupdate, hk]]
      exact .cons ⟨rfl, h xv (by simp [alookup, hk])⟩ (entryShape_refl xs)
    · rw [show aupdate ((xk, xv) :: xs) nm q = (xk, xv) :: aupdate xs nm q from by
        simp [aupdate, hk]]
      exact .cons ⟨rfl, paramShape_refl xv⟩
        (ih nm q (fun p hp => h p (by simp [alookup, hk, hp])))

theorem resolver_shape : ∀ fuel : Nat,
    (∀ (ps : ParamSet) (st : Symtable) (nm : String) (ps' : ParamSet) (st' : Symtable),
        update_paramval fuel ps st nm = .ok (ps', st') → List.Forall₂ entryShape ps ps') ∧
    (∀ (ds : List String) (ps : ParamSet) (st : Symtable) (ps' : ParamSet) (st' : Symtable),
        updateDeps fuel ps st ds = .ok (ps', st') → List.Forall₂ entryShape ps ps') := by
  intro fuel
  induction fuel with
  | zero =>
    constructor
    · intro ps st nm ps' st' h
      simp [update_paramval] at h
    · intro ds ps st ps' st' h
      cases ds with
      | nil =>
        simp [updateDeps] at h
        rw [← h.1]
        exact entryShape_refl ps
      | cons d rest => simp [updateDeps, update_paramval] at h
  | succ n ih =>
    have hP : ∀ (ps : ParamSet) (st : Symtable) (nm : String) (ps' : ParamSet)
        (st' : Symtable), update_paramval (n + 1) ps st nm = .ok (ps', st') →
        List.Forall₂ entryShape ps ps' := by
      intro ps st nm ps' st' h
      cases hp : alookup ps nm with
      | none => simp [update_paramval, hp] at h
      | some par =>
        cases hexpr : par.expr with
        | none =>
          simp [update_paramval, hp, hexpr] at h
          rw [← h.1]
          exact entryShape_refl ps
        | some src =>
          cases hast : par.ast with
          | some a0 =>
            cases hd : updateDeps n ps st (par.deps.getD []) with
            | error e => simp [update_paramval, hp, hexpr, hast, hd] at h
            | ok r =>
              obtain ⟨ps1, st1⟩ := r
              have hshape1 : List.Forall₂ entryShape ps ps1 := ih.2 _ _ _ _ _ hd
              cases hp1 : alookup ps1 nm with
              | none => simp [update_paramval, hp, hexpr, hast, hd, hp1] at h
              | some par1 =>
                cases ha : par1.ast with
                | none => simp [update_paramval, hp, hexpr, hast, hd, hp1, ha] at h
                | some a =>
                  cases hrun : Interpreter.run st1 a with
                  | error u =>
                    simp [update_paramval, hp, hexpr, hast, hd, hp1, ha, hrun] at h
                  | ok v =>
                    simp [update_paramval, hp, hexpr, hast, hd, hp1, ha, hrun] at h
                    have hupd : List.Forall₂ entryShape ps1
                        (aupdate ps1 nm { par1 with value := some v, ast := some a }) := by
                      apply entryShape_aupdate
                      intro p hp'
                      have hpp : p = par1 := Option.some.inj (hp'.symm.trans hp1)
                      subst hpp
                      exact ⟨rfl, rfl, rfl, rfl, rfl, Or.inr ⟨v, rfl⟩, Or.inl ha.symm⟩
                    rw [← h.1]
                    exact entryShape_trans hshape1 hupd
          | none =>
            have hshape0 : List.Forall₂ entryShape ps
                (aupdate ps nm
                  { par with expr := some src,
                             ast := (Interpreter.parse src).toOption }) := by
              apply entryShape_aupdate
              intro p hp'
              have hpp : p = par := Option.some.inj (hp'.symm.trans hp)
              subst hpp
              exact ⟨hexpr.symm, rfl, rfl, rfl, rfl, Or.inl rfl, Or.inr hast⟩
            cases hd : updateDeps n
                (aupdate ps nm
                  { par with expr := some src,
                             ast := (Interpreter.parse src).toOption }) st
                (par.deps.getD []) with
            | error e => simp [update_paramval, hp, hexpr, hast, hd] at h
            | ok r =>
              obtain ⟨ps1, st1⟩ := r
              have hshape1 : List.Forall₂ entryShape ps ps1 :=
                entryShape_trans hshape0 (ih.2 _ _ _ _ _ hd)
              cases hp1 : alookup ps1 nm with
              | none => simp [update_paramval, hp, hexpr, hast, hd, hp1] at h
              | some par1 =>
                cases ha : par1.ast with
                | none => simp [update_paramval, hp, hexpr, hast, hd, hp1, ha] at h
                | some a =>
                  cases hrun : Interpreter.run st1 a with
                  | error u =>
                    simp [update_paramval, hp, hexpr, hast, hd, hp1, ha, hrun] at h
                  | ok v =>
                    simp [update_paramval, hp, hexpr, hast, hd, hp1, ha, hrun] at h
                    have hupd : List.Forall₂ entryShape ps1
                        (aupdate ps1 nm { par1 with value := some v, ast := some a }) := by
                      apply entryShape_aupdate
                      intro p hp'
                      have hpp : p = par1 := Option.some.inj (hp'.symm.trans hp1)
                      subst hpp
                      exact ⟨rfl, rfl, rfl, rfl, rfl, Or.inr ⟨v, rfl⟩, Or.inl ha.symm⟩
                    rw [← h.1]
                    exact entryShape_trans hshape1 hupd
    refine ⟨hP, ?_⟩
    intro ds
    induction ds with
    | nil =>
      intro ps st ps' st' h
      simp [updateDeps] at h
      rw [← h.1]
      exact entryShape_refl ps
    | cons d rest ihd =>
      intro ps st ps' st' h
      cases hu : update_paramval (n + 1) ps st d with
      | error e => simp [updateDeps, hu] at h
      | ok r =>
        obtain ⟨ps1, st1⟩ := r
        have h1 := hP ps st d ps1 st1 hu
        rw [show updateDeps (n + 1) ps st (d :: rest) = updateDeps (n + 1) ps1 st1 rest from by
          simp [updateDeps, hu]] at h
        exact entryShape_trans h1 (ihd ps1 st1 ps' st' h)

/-! ## Termination on acyclic deps, non-termination on a cycle (C10) -/

theorem rankedBy_of_shape {ps ps' : ParamSet} (h : List.Forall₂ entryShape ps ps')
    (rank : String → Nat) (hr : RankedBy rank ps) : RankedBy rank ps' := by
  intro e' he' d hd
  obtain ⟨e, he, hkey, hshape⟩ := forall₂_mem_right h e' he'
  have hdeps : e'.2.deps = e.2.deps := hshape.2.1
  rw [hkey]
  exact hr e he d (by rw [← hdeps]; exact hd)

theorem updp_ranked_no_fuel_exhaustion (rank : String → Nat) : ∀ fuel : Nat,
    (∀ (ps : ParamSet) (st : Symtable) (nm : String), RankedBy rank ps → rank nm < fuel →
        ranOut (update_paramval fuel ps st nm) = false) ∧
    (∀ (ds : List String) (ps : ParamSet) (st : Symtable), RankedBy rank ps →
        (∀ d ∈ ds, rank d < fuel) → ranOut (updateDeps fuel ps st ds) = false) := by
  intro fuel
  induction fuel with
  | zero =>
    constructor
    · intro ps st nm _ hlt
      exact absurd hlt (Nat.not_lt_zero _)
    · intro ds ps st _ hds
      cases ds with
      | nil => simp [updateDeps, ranOut]
      | cons d rest => exact absurd (hds d (List.mem_cons_self _ _)) (Nat.not_lt_zero _)
  | succ n ih =>
    have hP : ∀ (ps : ParamSet) (st : Symtable) (nm : String), RankedBy rank ps →
        rank nm < n + 1 → ranOut (update_paramval (n + 1) ps st nm) = false := by
      intro ps st nm hr hlt
      cases hp : alookup ps nm with
      | none => simp [update_paramval, hp, ranOut]
      | some par =>
        cases hexpr : par.expr with
        | none => simp [update_paramval, hp, hexpr, ranOut]
        | some src =>
          have hdeps : ∀ d ∈ par.deps.getD [], rank d < n := by
            intro d hd
            have hlt2 : rank d < rank nm := hr (nm, par) (alookup_mem ps nm par hp) d hd
            omega
          cases hast : par.ast with
          | some a0 =>
            have hq := ih.2 (par.deps.getD []) ps st hr hdeps
            cases hd : updateDeps n ps st (par.deps.getD []) with
            | error e =>
              rw [hd] at hq
              simp only [update_paramval, hp, hexpr, hast, hd]
              exact hq
            | ok r =>
              obtain ⟨ps1, st1⟩ := r
              cases hp1 : alookup ps1 nm with
              | none => simp [update_paramval, hp, hexpr, hast, hd, hp1, ranOut]
              | some par1 =>
                cases ha : par1.ast with
                | none => simp [update_paramval, hp, hexpr, hast, hd, hp1, ha, ranOut]
                | some a =>
                  cases hrun : Interpreter.run st1 a with
                  | error u =>
                    simp [update_paramval, hp, hexpr, hast, hd, hp1, ha, hrun, ranOut]
                  | ok v =>
                    simp [update_paramval, hp, hexpr, hast, hd, hp1, ha, hrun, ranOut]
          | none =>
            have hr0 : RankedBy rank
                (aupdate ps nm
                  { par with expr := some src,
                             ast := (Interpreter.parse src).toOption }) := by
              refine rankedBy_of_shape (entryShape_aupdate ps nm _ ?_) rank hr
              intro p hp'
              have hpp : p = par := Option.some.inj (hp'.symm.trans hp)
              subst hpp
              exact ⟨hexpr.symm, rfl, rfl, rfl, rfl, Or.inl rfl, Or.inr hast⟩
            have hq := ih.2 (par.deps.getD [])
              (aupdate ps nm
                { par with expr := some src,
                           ast := (Interpreter.parse src).toOption }) st hr0 hdeps
            cases hd : updateDeps n
                (aupdate ps nm
                  { par with expr := some src,
                             ast := (Interpreter.parse src).toOption }) st
                (par.deps.getD []) with
            | error e =>
              rw [hd] at hq
              simp only [update_paramval, hp, hexpr, hast, hd]
              exact hq
            | ok r =>
              obtain ⟨ps1, st1⟩ := r
              cases hp1 : alookup ps1 nm with
              | none => simp [update_paramval, hp, hexpr, hast, hd, hp1, ranOut]
              | some par1 =>
                cases ha : par1.ast with
                | none => simp [update_paramval, hp, hexpr, hast, hd, hp1, ha, ranOut]
                | some a =>
                  cases hrun : Interpreter.run st1 a with
                  | error u =>
                    simp [update_paramval, hp, hexpr, hast, hd, hp1, ha, hrun, ranOut]
                  | ok v =>
                    simp [update_paramval, hp, hexpr, hast, hd, hp1, ha, hrun, ranOut]
    refine ⟨hP, ?_⟩
    intro ds
    induction ds with
    | nil => intro ps st _ _; simp [updateDeps, ranOut]
    | cons d rest ihd =>
      intro ps st hr hds
      have h1 := hP ps st d hr (hds d (List.mem_cons_self _ _))
      cases hu : update_paramval (n + 1) ps st d with
      | error e =>
        rw [hu] at h1
        rw [show updateDeps (n + 1) ps st (d :: rest) = .error e from by
          simp [updateDeps, hu]]
        exact h1
      | ok r =>
        obtain ⟨ps1, st1⟩ := r
        have hps1 : RankedBy rank ps1 :=
          rankedBy_of_shape ((resolver_shape (n + 1)).1 _ _ _ _ _ hu) rank hr
        rw [show updateDeps (n + 1) ps st (d :: rest) = updateDeps (n + 1) ps1 st1 rest from by
          simp [updateDeps, hu]]
        exact ihd ps1 st1 hps1 (fun d' hd' => hds d' (List.mem_cons_of_mem _ hd'))

theorem updp_cyclic_exhausts : ∀ (fuel : Nat) (st : Symtable),
    update_paramval fuel psCyclic st "a" = .error (.outOfFuel, st) ∧
    update_paramval fuel psCyclic st "b" = .error (.outOfFuel, st) := by
  intro fuel
  induction fuel with
  | zero => intro st; exact ⟨by simp [update_paramval], by simp [update_paramval]⟩
  | succ n ih =>
    intro st
    have hla : alookup psCyclic "a" =
        some ⟨some "a", none, none, none, some (.src (.var "b")), some (.var "b"),
              some ["b"]⟩ := rfl
    have hlb : alookup psCyclic "b" =
        some ⟨some "b", none, none, none, some (.src (.var "a")), some (.var "a"),
              some ["a"]⟩ := rfl
    constructor
    · simp [update_paramval, hla, updateDeps, (ih st).2]
    · simp [update_paramval, hlb, updateDeps, (ih st).1]

/-- C10: `__update_paramval` recurses directly on the stored deps lists
with no cycle guard: whenever a rank function witnesses that the deps
graph is acyclic, the recursion never exhausts any fuel above the
parameter's rank (it terminates); while on the cyclic pair `a ↔ b` every
fuel amount is exhausted (the recursion does not terminate). -/
theorem update_paramval_termination :
    (∀ (rank : String → Nat) (fuel : Nat) (ps : ParamSet) (st : Symtable) (nm : String),
        RankedBy rank ps → rank nm < fuel →
        ranOut (update_paramval fuel ps st nm) = false) ∧
    (∀ (fuel : Nat) (st : Symtable),
        update_paramval fuel psCyclic st "a" = .error (.outOfFuel, st)) :=
  ⟨fun rank fuel ps st nm hr hlt =>
      (updp_ranked_no_fuel_exhaustion rank fuel).1 ps st nm hr hlt,
   fun fuel st => (updp_cyclic_exhausts fuel st).1⟩

/-- C10 witness: the concrete acyclic set resolves within fuel 2 (rank of
`c` is 1), and the concrete cycle exhausts fuel 2 (as it does any fuel). -/
theorem update_paramval_termination_witness :
    RankedBy rankAC psAcyc ∧ rankAC "c" < 2 ∧
    ranOut (update_paramval 2 psAcyc [] "c") = false ∧
    update_paramval 2 psCyclic [] "a" = .error (.outOfFuel, []) :=
  ⟨by decide, by decide,
   update_paramval_termination.1 rankAC 2 psAcyc [] "c" (by decide) (by decide),
   update_paramval_termination.2 2 []⟩

/-! ## Idempotence of the resolution pass (C9) -/

theorem assign_deps_forall₂ : ∀ (prev : ParamSet) (ps : List (String × Param)) (st : Symtable)
    (ps' : ParamSet) (st' : Symtable), assign_deps prev ps st = .ok (ps', st') →
    List.Forall₂ (fun e e' => e'.1 = e.1 ∧ adEntry prev e.1 e.2 = some e'.2) ps ps' := by
  intro prev ps
  induction ps with
  | nil =>
    intro st ps' st' h
    simp [assign_deps] at h
    obtain ⟨h1, h2⟩ := h
    subst h1
    exact .nil
  | cons e rest ih =>
    obtain ⟨nm, par⟩ := e
    intro st ps' st' h
    cases hexpr : par.expr with
    | none =>
      cases hrec : assign_deps prev rest st with
      | error er => simp [assign_deps, hexpr, hrec] at h
      | ok r =>
        obtain ⟨rest', st2⟩ := r
        simp [assign_deps, hexpr, hrec] at h
        rw [← h.1]
        exact .cons ⟨rfl, by simp [adEntry, hexpr]⟩ (ih st rest' st2 hrec)
    | some src =>
      cases hsrc : Interpreter.parse src with
      | error u => simp [assign_deps, hexpr, hsrc] at h
      | ok a =>
        cases hrec : assign_deps prev rest (ainsert st nm par.value) with
        | error er => simp [assign_deps, hexpr, hsrc, hrec] at h
        | ok r =>
          obtain ⟨rest', st2⟩ := r
          simp [assign_deps, hexpr, hsrc, hrec] at h
          rw [← h.1]
          exact .cons ⟨rfl, by simp [adEntry, hexpr, hsrc]⟩ (ih _ rest' st2 hrec)

theorem assign_deps_fixpoint : ∀ (prev : ParamSet) (ps : List (String × Param)) (st : Symtable),
    (∀ e ∈ ps, adEntry prev e.1 e.2 = some e.2) →
    ∃ st', assign_deps prev ps st = .ok (ps, st') := by
  intro prev ps
  induction ps with
  | nil => intro st _; exact ⟨st, rfl⟩
  | cons e rest ih =>
    obtain ⟨nm, par⟩ := e
    intro st hfix
    have hhead := hfix (nm, par) (List.mem_cons_self _ _)
    cases hexpr : par.expr with
    | none =>
      obtain ⟨st', hst'⟩ := ih st (fun e he => hfix e (List.mem_cons_of_mem _ he))
      exact ⟨st', by simp [assign_deps, hexpr, hst']⟩
    | some src =>
      cases hsrc : Interpreter.parse src with
      | error u =>
        exfalso
        simp [adEntry, hexpr, hsrc] at hhead
      | ok a =>
        have hpar :
            ({ par with
                expr := some src,
                ast := some a,
                deps := some (depsLoop prev [] (NameFinder.names a)),
                name := (match par.name with
                         | none => some nm
                         | some s => some s) } : Param) = par := by
          simp only [adEntry, hexpr, hsrc] at hhead
          exact Option.some.inj hhead
        obtain ⟨st', hst'⟩ := ih (ainsert st nm par.value)
          (fun e he => hfix e (List.mem_cons_of_mem _ he))
        exact ⟨st', by simp [assign_deps, hexpr, hsrc, hst', hpar]⟩

theorem param_update_eta (r : Param) (x : Option Ast) (y : Option (List String))
    (z : Option String) (hx : r.ast = x) (hy : r.deps = y) (hz : r.name = z) :
    ({ r with ast := x, deps := y, name := z } : Param) = r := by
  subst hx
  subst hy
  subst hz
  cases r
  rfl

theorem adEntry_shape_fixpoint (prev : ParamSet) (nm : String) {p q r : Param}
    (h1 : adEntry prev nm p = some q) (h2 : ParamShape q r) :
    adEntry prev nm r = some r := by
  obtain ⟨he2, hd2, hn2, _, _, _, ha2⟩ := h2
  cases hexpr : p.expr with
  | none =>
    have hq : q = p := by
      have := h1
      simp only [adEntry, hexpr] at this
      exact (Option.some.inj this).symm
    subst hq
    have hre : r.expr = none := he2.trans hexpr
    simp [adEntry, hre]
  | some src =>
    cases hsrc : Interpreter.parse src with
    | error u => simp [adEntry, hexpr, hsrc] at h1
    | ok a =>
      have hq :
          ({ p with
              expr := some src,
              ast := some a,
              deps := some (depsLoop prev [] (NameFinder.names a)),
              name := (match p.name with
                       | none => some nm
                       | some s => some s) } : Param) = q := by
        have := h1
        simp only [adEntry, hexpr, hsrc] at this
        exact Option.some.inj this
      have hqe : q.expr = some src := by rw [← hq]
      have hqa : q.ast = some a := by rw [← hq]
      have hqd : q.deps = some (depsLoop prev [] (NameFinder.names a)) := by rw [← hq]
      obtain ⟨s, hs⟩ : ∃ s, q.name = some s := by
        rw [← hq]
        cases hn : p.name with
        | none => exact ⟨nm, rfl⟩
        | some s0 => exact ⟨s0, rfl⟩
      have hre : r.expr = some src := he2.trans hqe
      have hrd : r.deps = some (depsLoop prev [] (NameFinder.names a)) := hd2.trans hqd
      have hrn : r.name = some s := hn2.trans hs
      have hra : r.ast = some a := by
        rcases ha2 with hh | hh
        · exact hh.trans hqa
        · rw [hh] at hqa; cases hqa
      rw [show adEntry prev nm r =
          some ({ r with
                   ast := some a,
                   deps := some (depsLoop prev [] (NameFinder.names a)),
                   name := some s } : Param) from by simp [adEntry, hre, hsrc, hrn]]
      rw [param_update_eta r _ _ _ hra hrd hrn]

theorem forall₂_ad_shape_fixpoint (prev : ParamSet) :
    ∀ {ps psA ps1 : ParamSet},
      List.Forall₂ (fun e e' => e'.1 = e.1 ∧ adEntry prev e.1 e.2 = some e'.2) ps psA →
      List.Forall₂ entryShape psA ps1 →
      ∀ e1 ∈ ps1, adEntry prev e1.1 e1.2 = some e1.2 := by
  intro ps
  induction ps with
  | nil =>
    intro psA ps1 h1 h2 e1 he1
    cases h1
    cases h2
    simp at he1
  | cons x xs ih =>
    intro psA ps1 h1 h2 e1 he1
    cases h1 with
    | cons hxy htail1 =>
      cases h2 with
      | cons hyz htail2 =>
        rcases List.mem_cons.mp he1 with heq | hmem
        · subst heq
          have hkey : e1.1 = x.1 := hyz.1.trans hxy.1
          rw [hkey]
          exact adEntry_shape_fixpoint prev x.1 hxy.2 hyz.2
        · exact ih htail1 htail2 e1 hmem

theorem wellNamed_of_shape {ps ps' : ParamSet} (h : List.Forall₂ entryShape ps ps')
    (hw : wellNamed ps) : wellNamed ps' := by
  intro e' he'
  obtain ⟨e, he, hkey, hshape⟩ := forall₂_mem_right h e' he'
  rw [hshape.2.2.1, hw e he, hkey]

theorem wellNamed_of_ad (prev : ParamSet) : ∀ {ps psA : ParamSet},
    List.Forall₂ (fun e e' => e'.1 = e.1 ∧ adEntry prev e.1 e.2 = some e'.2) ps psA →
    wellNamed ps → wellNamed psA := by
  intro ps
  induction ps with
  | nil =>
    intro psA h _
    cases h
    intro e he
    simp at he
  | cons x xs ih =>
    intro psA h hw
    cases h with
    | cons hxy htail =>
      intro e' he'
      rcases List.mem_cons.mp he' with heq | hmem
      · subst heq
        obtain ⟨xk, xv⟩ := x
        have hx : xv.name = some xk := hw (xk, xv) (List.mem_cons_self _ _)
        cases hexpr : xv.expr with
        | none =>
          have heq2 : e'.2 = xv := by
            have := hxy.2
            simp only [adEntry, hexpr] at this
            exact (Option.some.inj this).symm
          rw [heq2, hx, hxy.1]
        | some src =>
          cases hsrc : Interpreter.parse src with
          | error u =>
            have := hxy.2
            simp [adEntry, hexpr, hsrc] at this
          | ok a =>
            have hy :
                ({ xv with
                    expr := some src,
                    ast := some a,
                    deps := some (depsLoop prev [] (NameFinder.names a)),
                    name := (match xv.name with
                             | none => some xk
                             | some s => some s) } : Param) = e'.2 := by
              have := hxy.2
              simp only [adEntry, hexpr, hsrc] at this
              exact Option.some.inj this
            rw [hxy.1, ← hy]
            simp [hx]
      · exact ih htail (fun e he => hw e (List.mem_cons_of_mem _ he)) e' hmem

theorem updp_sets_value (fuel : Nat) (ps : ParamSet) (st : Symtable) (nm : String)
    (p : Param) (src : ExprSrc) (ps1 : ParamSet) (st1 : Symtable)
    (hp : alookup ps nm = some p) (hexpr : p.expr = some src)
    (hu : update_paramval fuel ps st nm = .ok (ps1, st1)) :
    ∃ q v, alookup ps1 nm = some q ∧ q.value = some v := by
  cases fuel with
  | zero => simp [update_paramval] at hu
  | succ n =>
    cases hast : p.ast with
    | some a0 =>
      cases hd : updateDeps n ps st (p.deps.getD []) with
      | error e => simp [update_paramval, hp, hexpr, hast, hd] at hu
      | ok r =>
        obtain ⟨ps2, st2⟩ := r
        cases hp1 : alookup ps2 nm with
        | none => simp [update_paramval, hp, hexpr, hast, hd, hp1] at hu
        | some par1 =>
          cases ha : par1.ast with
          | none => simp [update_paramval, hp, hexpr, hast, hd, hp1, ha] at hu
          | some a =>
            cases hrun : Interpreter.run st2 a with
            | error u => simp [update_paramval, hp, hexpr, hast, hd, hp1, ha, hrun] at hu
            | ok v =>
              simp [update_paramval, hp, hexpr, hast, hd, hp1, ha, hrun] at hu
              refine ⟨{ par1 with value := some v, ast := some a }, v, ?_, rfl⟩
              rw [← hu.1, alookup_aupdate_self, hp1]
              rfl
    | none =>
      cases hd : updateDeps n
          (aupdate ps nm { p with expr := some src,
                                  ast := (Interpreter.parse src).toOption }) st
          (p.deps.getD []) with
      | error e => simp [update_paramval, hp, hexpr, hast, hd] at hu
      | ok r =>
        obtain ⟨ps2, st2⟩ := r
        cases hp1 : alookup ps2 nm with
        | none => simp [update_paramval, hp, hexpr, hast, hd, hp1] at hu
        | some par1 =>
          cases ha : par1.ast with
          | none => simp [update_paramval, hp, hexpr, hast, hd, hp1, ha] at hu
          | some a =>
            cases hrun : Interpreter.run st2 a with
            | error u => simp [update_paramval, hp, hexpr, hast, hd, hp1, ha, hrun] at hu
            | ok v =>
              simp [update_paramval, hp, hexpr, hast, hd, hp1, ha, hrun] at hu
              refine ⟨{ par1 with value := some v, ast := some a }, v, ?_, rfl⟩
              rw [← hu.1, alookup_aupdate_self, hp1]
              rfl

theorem updp_ok_fuel_pos {fuel : Nat} {ps : ParamSet} {st : Symtable} {nm : String}
    {ps1 : ParamSet} {st1 : Symtable}
    (hu : update_paramval fuel ps st nm = .ok (ps1, st1)) : 1 ≤ fuel := by
  cases fuel with
  | zero => simp [update_paramval] at hu
  | succ n => omega

theorem resolveLoop_master : ∀ (keys : List String) (fuel : Nat) (ps : ParamSet)
    (st : Symtable) (ps' : ParamSet) (st' : Symtable),
    wellNamed ps → resolveLoop fuel keys ps st = .ok (ps', st') →
    List.Forall₂ entryShape ps ps' ∧ wellNamed ps' ∧
    (∀ nm ∈ keys, ∀ q, alookup ps' nm = some q → q.value = none →
        (q.expr = none ∧ 1 ≤ fuel)) := by
  intro keys
  induction keys with
  | nil =>
    intro fuel ps st ps' st' hw h
    simp [resolveLoop] at h
    obtain ⟨h1, h2⟩ := h
    subst h1
    exact ⟨entryShape_refl _, hw, by simp⟩
  | cons nm0 rest ih =>
    intro fuel ps st ps' st' hw h
    cases hp : alookup ps nm0 with
    | none =>
      rw [show resolveLoop fuel (nm0 :: rest) ps st = resolveLoop fuel rest ps st from by
        simp [resolveLoop, hp]] at h
      obtain ⟨hshape, hw', hrest⟩ := ih fuel ps st ps' st' hw h
      refine ⟨hshape, hw', ?_⟩
      intro nm hnm q hq hv
      rcases List.mem_cons.mp hnm with heq | hmem
      · subst heq
        rcases entryShape_alookup hshape nm with ⟨h1, h2⟩ | ⟨p0, q0, h1, h2, h3⟩
        · rw [h2] at hq; cases hq
        · rw [h1] at hp; cases hp
      · exact hrest nm hmem q hq hv
    | some p =>
      by_cases hv0 : p.value = none
      · have hpn : p.name = some nm0 := hw (nm0, p) (alookup_mem ps nm0 p hp)
        cases hu : update_paramval fuel ps st nm0 with
        | error e =>
          rw [show resolveLoop fuel (nm0 :: rest) ps st = .error e from by
            simp [resolveLoop, hp, hv0, hpn, hu]] at h
          cases h
        | ok r =>
          obtain ⟨ps1, st1⟩ := r
          rw [show resolveLoop fuel (nm0 :: rest) ps st = resolveLoop fuel rest ps1 st1 from by
            simp [resolveLoop, hp, hv0, hpn, hu]] at h
          have hsh1 : List.Forall₂ entryShape ps ps1 := (resolver_shape fuel).1 _ _ _ _ _ hu
          have hw1 : wellNamed ps1 := wellNamed_of_shape hsh1 hw
          obtain ⟨hshape2, hw', hrest⟩ := ih fuel ps1 st1 ps' st' hw1 h
          have hfuel : 1 ≤ fuel := updp_ok_fuel_pos hu
          refine ⟨entryShape_trans hsh1 hshape2, hw', ?_⟩
          intro nm hnm q hq hvq
          rcases List.mem_cons.mp hnm with heq | hmem
          · subst heq
            refine ⟨?_, hfuel⟩
            cases hexpr : p.expr with
            | none =>
              rcases entryShape_alookup (entryShape_trans hsh1 hshape2) nm with
                ⟨h1, h2⟩ | ⟨p0, q0, h1, h2, h3⟩
              · rw [h1] at hp; cases hp
              · rw [h1] at hp
                rw [h2] at hq
                have hpp : p0 = p := Option.some.inj hp
                have hqq : q0 = q := Option.some.inj hq
                subst hpp
                subst hqq
                exact h3.1.trans hexpr
            | some src =>
              exfalso
              obtain ⟨q1, v, hq1, hv1⟩ :=
                updp_sets_value fuel ps st nm p src ps1 st1 hp hexpr hu
              rcases entryShape_alookup hshape2 nm with ⟨h1, h2⟩ | ⟨p0, q0, h1, h2, h3⟩
              · rw [h1] at hq1; cases hq1
              · rw [h1] at hq1
                rw [h2] at hq
                have hpp : p0 = q1 := Option.some.inj hq1
                have hqq : q0 = q := Option.some.inj hq
                subst hpp
                subst hqq
                rcases h3.2.2.2.2.2.1 with hval | ⟨w, hval⟩
                · rw [hvq, hv1] at hval; cases hval
                · rw [hvq] at hval; cases hval
          · exact hrest nm hmem q hq hvq
      · rw [show resolveLoop fuel (nm0 :: rest) ps st = resolveLoop fuel rest ps st from by
          simp [resolveLoop, hp, hv0]] at h
        obtain ⟨hshape, hw', hrest⟩ := ih fuel ps st ps' st' hw h
        refine ⟨hshape, hw', ?_⟩
        intro nm hnm q hq hvq
        rcases List.mem_cons.mp hnm with heq | hmem
        · subst heq
          exfalso
          rcases entryShape_alookup hshape nm with ⟨h1, h2⟩ | ⟨p0, q0, h1, h2, h3⟩
          · rw [h1] at hp; cases hp
          · rw [h1] at hp
            rw [h2] at hq
            have hpp : p0 = p := Option.some.inj hp
            have hqq : q0 = q := Option.some.inj hq
            subst hpp
            subst hqq
            rcases h3.2.2.2.2.2.1 with hval | ⟨w, hval⟩
            · exact hv0 (hval.symm.trans hvq)
            · rw [hvq] at hval; cases hval
        · exact hrest nm hmem q hq hvq

theorem resolveLoop_noop : ∀ (keys : List String) (fuel : Nat) (ps : ParamSet)
    (st : Symtable),
    wellNamed ps →
    (∀ nm ∈ keys, ∀ q, alookup ps nm = some q → q.value = none →
        (q.expr = none ∧ 1 ≤ fuel)) →
    ∃ st2, resolveLoop fuel keys ps st = .ok (ps, st2) := by
  intro keys
  induction keys with
  | nil => intro fuel ps st _ _; exact ⟨st, by simp [resolveLoop]⟩
  | cons nm0 rest ih =>
    intro fuel ps st hw hkeys
    cases hp : alookup ps nm0 with
    | none =>
      obtain ⟨st2, h2⟩ := ih fuel ps st hw
        (fun nm hnm => hkeys nm (List.mem_cons_of_mem _ hnm))
      exact ⟨st2, by simp [resolveLoop, hp, h2]⟩
    | some p =>
      by_cases hv : p.value = none
      · obtain ⟨hne, hfuel⟩ := hkeys nm0 (List.mem_cons_self _ _) p hp hv
        have hpn : p.name = some nm0 := hw (nm0, p) (alookup_mem ps nm0 p hp)
        obtain ⟨k, hk⟩ : ∃ k, fuel = k + 1 := ⟨fuel - 1, by omega⟩
        subst hk
        have hstep : update_paramval (k + 1) ps st nm0 = .ok (ps, ainsert st nm0 none) := by
          simp [update_paramval, hp, hne, hv]
        obtain ⟨st2, h2⟩ := ih (k + 1) ps (ainsert st nm0 none) hw
          (fun nm hnm => hkeys nm (List.mem_cons_of_mem _ hnm))
        exact ⟨st2, by simp [resolveLoop, hp, hv, hpn, hstep, h2]⟩
      · obtain ⟨st2, h2⟩ := ih fuel ps st hw
          (fun nm hnm => hkeys nm (List.mem_cons_of_mem _ hnm))
        exact ⟨st2, by simp [resolveLoop, hp, hv, h2]⟩

/-- C9: after a successful resolution pass over a well-named ParameterSet
(every parameter records its key as its `name`, the spec's data-model
invariant), re-running the pass on its output — same established
parameters, unchanged free values — succeeds and returns exactly the
same ParameterSet, so all parameter values are identical after the
second pass (resolution is idempotent). -/
theorem resolution_pass_idempotent (fuel : Nat) (prev ps : ParamSet) (st : Symtable)
    (hw : wellNamed ps) : idemAfter fuel prev (resolvePass fuel prev ps st) := by
  cases had : assign_deps prev ps st with
  | error e => simp [idemAfter, resolvePass, had]
  | ok r =>
    obtain ⟨psA, stA⟩ := r
    cases hloop : resolveLoop fuel (psA.map Prod.fst) psA stA with
    | error e => simp [idemAfter, resolvePass, had, hloop]
    | ok r2 =>
      obtain ⟨ps1, st1⟩ := r2
      rw [show resolvePass fuel prev ps st = .ok (ps1, st1) from by
        simp [resolvePass, had, hloop]]
      simp only [idemAfter]
      have hadF := assign_deps_forall₂ prev ps st psA stA had
      have hwA : wellNamed psA := wellNamed_of_ad prev hadF hw
      obtain ⟨hshape, hw1, hmaster⟩ :=
        resolveLoop_master (psA.map Prod.fst) fuel psA stA ps1 st1 hwA hloop
      have hfix : ∀ e1 ∈ ps1, adEntry prev e1.1 e1.2 = some e1.2 :=
        forall₂_ad_shape_fixpoint prev hadF hshape
      obtain ⟨stB, hB⟩ := assign_deps_fixpoint prev ps1 st1 hfix
      have hkeys : ps1.map Prod.fst = psA.map Prod.fst := entryShape_keys hshape
      have hnoop : ∀ nm ∈ ps1.map Prod.fst, ∀ q, alookup ps1 nm = some q →
          q.value = none → (q.expr = none ∧ 1 ≤ fuel) := by
        intro nm hnm q hq hv
        exact hmaster nm (hkeys ▸ hnm) q hq hv
      obtain ⟨st2, h2⟩ := resolveLoop_noop (ps1.map Prod.fst) fuel ps1 stB hw1 hnoop
      rw [show resolvePass fuel prev ps1 st1 = .ok (ps1, st2) from by
        simp [resolvePass, hB, h2]]
      simp [passParams]

/-- C9 witness: the worked example is well-named; after its resolution
pass completes, re-running the pass reproduces the same ParameterSet. -/
theorem resolution_pass_idempotent_witness :
    wellNamed psABC ∧ idemAfter 3 psABC (resolvePass 3 psABC psABC []) :=
  ⟨by decide, resolution_pass_idempotent 3 psABC psABC [] (by decide)⟩
